import Mathlib

/-!
Verification of the Genten sparse-tensor decomposition kernels.

This file gives a shallow embedding of the sequential semantics of the
core Genten kernels (MTTKRP in its three sparse-storage variants, the
inner-product kernel, row-pointer construction, the CP-ALS driver's
argument checks, residual-norm computation and iteration counting, and
the headerless sparse-tensor text parser), together with theorems
settling the specified properties of each.

Real values are modelled as rationals: the theorems describe the exact
arithmetic performed by the kernels; floating-point rounding is outside
the model.  Parallel loops whose iterations combine through additions
(atomic or plain) are embedded as sequential folds in index order, which
is their exact-arithmetic semantics.
-/

namespace Genten

/-- A dense factor matrix (`Genten::FacMatrixT`): `nRows × nCols`
row-major reals, embedded as an entry function. -/
structure FacMatrix where
  nRows : ℕ
  nCols : ℕ
  entry : ℕ → ℕ → ℚ

/-- A K-tensor (`Genten::KtensorT`): `nd` factor matrices sharing rank
`nc`, plus a weight vector of length `lambdaLen` with entries
`weights`. -/
structure Ktensor where
  nc : ℕ
  nd : ℕ
  lambdaLen : ℕ
  weights : ℕ → ℚ
  factor : ℕ → FacMatrix

/-- A COO sparse tensor (`Genten::SptensorT`): `nd` modes of sizes
`siz`, `nnz` nonzeros with subscripts `subs k d` and values `vals k`. -/
structure Sptensor where
  nd : ℕ
  siz : ℕ → ℕ
  nnz : ℕ
  subs : ℕ → ℕ → ℕ
  vals : ℕ → ℚ

/-! ### Generic fold lemmas shared by the kernel embeddings -/

/-- A left fold of multiplications equals the initial value times the
product, skipping the index `n` (the target mode). -/
theorem foldl_mul_skip (g : ℕ → ℚ) (n : ℕ) :
    ∀ (N : ℕ) (init : ℚ),
      (List.range N).foldl (fun t m => if m = n then t else t * g m) init =
        init * ∏ m ∈ (Finset.range N).filter (fun m => m ≠ n), g m := by
  intro N
  induction N with
  | zero => intro init; simp
  | succ N ih =>
    intro init
    rw [List.range_succ, List.foldl_append]
    simp only [List.foldl_cons, List.foldl_nil]
    by_cases hN : N = n
    · subst hN
      rw [if_pos rfl, ih]
      congr 1
      apply Finset.prod_congr _ (fun _ _ => rfl)
      rw [Finset.range_succ, Finset.filter_insert]
      simp
    · rw [if_neg hN, ih]
      rw [Finset.range_succ, Finset.filter_insert, if_pos hN,
        Finset.prod_insert (by simp)]
      ring

/-- A left fold of multiplications over all of `range N`. -/
theorem foldl_mul_all (g : ℕ → ℚ) :
    ∀ (N : ℕ) (init : ℚ),
      (List.range N).foldl (fun t m => t * g m) init =
        init * ∏ m ∈ Finset.range N, g m := by
  intro N
  induction N with
  | zero => intro init; simp
  | succ N ih =>
    intro init
    rw [List.range_succ, List.foldl_append]
    simp only [List.foldl_cons, List.foldl_nil]
    rw [ih, Finset.prod_range_succ]
    ring

/-- A left fold of additions equals the initial value plus the sum. -/
theorem foldl_add_eq_sum (f : ℕ → ℚ) :
    ∀ (N : ℕ) (init : ℚ),
      (List.range N).foldl (fun d k => d + f k) init =
        init + ∑ k ∈ Finset.range N, f k := by
  intro N
  induction N with
  | zero => intro init; simp
  | succ N ih =>
    intro init
    rw [List.range_succ, List.foldl_append]
    simp only [List.foldl_cons, List.foldl_nil]
    rw [ih, Finset.sum_range_succ]
    ring

/-! ### The COO MTTKRP kernel

`Genten::mttkrp(SptensorT, ...)` (Genten_MixedFormatOps.cpp): after
zeroing `v`, each nonzero `i` computes
`tmp_j = X.value(i) * lambda[j]`, multiplies in
`u[m].entry(X.subscript(i,m), j)` for every mode `m ≠ n`, and
atomically adds `tmp_j` into `v(X.subscript(i,n), j)`. -/

/-- The per-nonzero contribution of `MTTKRP_KernelBlock::run`: start
from `x_val * lambda[j]` and multiply in the factor rows for every mode
except the target mode `n`, in increasing mode order. -/
def mttkrpContrib (X : Sptensor) (u : Ktensor) (n k j : ℕ) : ℚ :=
  (List.range u.nd).foldl
    (fun t m => if m = n then t else t * (u.factor m).entry (X.subs k m) j)
    (X.vals k * u.weights j)

/-- One scatter-add of the COO kernel: add the contribution of nonzero
`k` into row `X.subs k n` of the output (atomic add, embedded as plain
addition in the sequential semantics). -/
def mttkrpScatter (X : Sptensor) (u : Ktensor) (n : ℕ)
    (v : ℕ → ℕ → ℚ) (k : ℕ) : ℕ → ℕ → ℚ :=
  fun i j => if i = X.subs k n then v i j + mttkrpContrib X u n k j else v i j

/-- The COO-variant MTTKRP: overwrite the output with zeros, then
scatter-add every nonzero's contribution. -/
def mttkrpCOO (X : Sptensor) (u : Ktensor) (n : ℕ) : ℕ → ℕ → ℚ :=
  (List.range X.nnz).foldl (mttkrpScatter X u n) (fun _ _ => 0)

/-- Closed form of the per-nonzero contribution. -/
theorem mttkrpContrib_eq (X : Sptensor) (u : Ktensor) (n k j : ℕ) :
    mttkrpContrib X u n k j =
      X.vals k * u.weights j *
        ∏ m ∈ (Finset.range u.nd).filter (fun m => m ≠ n),
          (u.factor m).entry (X.subs k m) j := by
  unfold mttkrpContrib
  rw [foldl_mul_skip]

/-- Scatter folds accumulate: the result of folding the scatter over a
range of nonzeros is the starting output plus, at each row `i`, the sum
of the contributions of the nonzeros whose target-mode subscript is
`i`. -/
theorem foldl_scatter_eq (X : Sptensor) (u : Ktensor) (n : ℕ) :
    ∀ (K : ℕ) (v : ℕ → ℕ → ℚ) (i j : ℕ),
      (List.range K).foldl (mttkrpScatter X u n) v i j =
        v i j + ∑ k ∈ (Finset.range K).filter (fun k => X.subs k n = i),
          mttkrpContrib X u n k j := by
  intro K
  induction K with
  | zero => intro v i j; simp
  | succ K ih =>
    intro v i j
    rw [List.range_succ, List.foldl_append]
    simp only [List.foldl_cons, List.foldl_nil]
    rw [mttkrpScatter, Finset.range_succ, Finset.filter_insert]
    by_cases h : X.subs K n = i
    · rw [if_pos h.symm, ih, if_pos h, Finset.sum_insert (by simp)]
      ring
    · rw [if_neg (fun hh => h hh.symm), ih, if_neg h]

/-- The fundamental sum characterization of the COO MTTKRP, shared by
the claims about all three variants. -/
theorem mttkrpCOO_eq_sum (X : Sptensor) (u : Ktensor) (n i j : ℕ) :
    mttkrpCOO X u n i j =
      ∑ k ∈ (Finset.range X.nnz).filter (fun k => X.subs k n = i),
        mttkrpContrib X u n k j := by
  unfold mttkrpCOO
  rw [foldl_scatter_eq]
  simp

/-- C1: the COO-variant `mttkrp` overwrites the output so that entry
`(i, j)` is the sum, over the nonzeros `k` whose target-mode subscript
`subs[k,n]` equals `i`, of
`vals[k] * lambda[j] * prod_{m ≠ n} U_m[subs[k,m], j]`; a row with no
matching nonzero is left at the zero written by the initial
overwrite. -/
theorem claim_C1_mttkrp_coo (X : Sptensor) (u : Ktensor) (n i j : ℕ)
    (hnd : X.nd = u.nd) (hn : n < X.nd) (hi : i < X.siz n) (hj : j < u.nc)
    (hv : ∀ m, m < X.nd → m ≠ n → (u.factor m).nRows = X.siz m) :
    mttkrpCOO X u n i j =
      (∑ k ∈ (Finset.range X.nnz).filter (fun k => X.subs k n = i),
        X.vals k * u.weights j *
          ∏ m ∈ (Finset.range u.nd).filter (fun m => m ≠ n),
            (u.factor m).entry (X.subs k m) j) ∧
      ((Finset.range X.nnz).filter (fun k => X.subs k n = i) = ∅ →
        mttkrpCOO X u n i j = 0) := by
  have hsum : mttkrpCOO X u n i j =
      ∑ k ∈ (Finset.range X.nnz).filter (fun k => X.subs k n = i),
        X.vals k * u.weights j *
          ∏ m ∈ (Finset.range u.nd).filter (fun m => m ≠ n),
            (u.factor m).entry (X.subs k m) j := by
    rw [mttkrpCOO_eq_sum]
    exact Finset.sum_congr rfl (fun k _ => mttkrpContrib_eq X u n k j)
  refine ⟨hsum, fun hempty => ?_⟩
  rw [hsum, hempty, Finset.sum_empty]

/-! ### Scenario A (spec §8): the 2×2×2 tensor with nonzeros
{(0,0,0)=1, (1,0,1)=2, (0,1,1)=3} and factors U_0 = U_1 = U_2 = I_{2×1}
with weights λ = [1]. -/

/-- The 2×2×2 sparse tensor of Scenario A. -/
def scenarioA_X : Sptensor where
  nd := 3
  siz := fun _ => 2
  nnz := 3
  subs := fun k d =>
    match k, d with
    | 0, _ => 0
    | 1, 0 => 1
    | 1, 1 => 0
    | 1, 2 => 1
    | 2, 0 => 0
    | 2, 1 => 1
    | 2, 2 => 1
    | _, _ => 0
  vals := fun k =>
    match k with
    | 0 => 1
    | 1 => 2
    | 2 => 3
    | _ => 0

/-- The 2×1 leading block of the identity matrix: entries (1; 0). -/
def facI21 : FacMatrix where
  nRows := 2
  nCols := 1
  entry := fun i j => if i = j then 1 else 0

/-- The rank-1 K-tensor of Scenario A: each factor is `I_{2×1}` and the
single weight is 1. -/
def scenarioA_U : Ktensor where
  nc := 1
  nd := 3
  lambdaLen := 1
  weights := fun _ => 1
  factor := fun _ => facI21

/-- C7 fails as stated: with the Scenario A inputs, MTTKRP with target
mode 0 gives `V[1,0] = 0`, not the value 2 demanded by the claim (the
nonzero (1,0,1)=2 contributes `2 * I21[0,0] * I21[1,0] = 0` to row 1). -/
theorem claim_C7_counterexample :
    ¬ (mttkrpCOO scenarioA_X scenarioA_U 0 1 0 = 2) := by
  norm_num [mttkrpCOO, mttkrpScatter, mttkrpContrib, scenarioA_X, scenarioA_U,
    facI21, List.range_succ]

/-- C7 amended: with the Scenario A inputs, MTTKRP with target mode 0
yields V = [[1],[0]], and with target mode 2 yields V = [[1],[0]]. -/
theorem claim_C7_amended :
    mttkrpCOO scenarioA_X scenarioA_U 0 0 0 = 1 ∧
    mttkrpCOO scenarioA_X scenarioA_U 0 1 0 = 0 ∧
    mttkrpCOO scenarioA_X scenarioA_U 2 0 0 = 1 ∧
    mttkrpCOO scenarioA_X scenarioA_U 2 1 0 = 0 := by
  norm_num [mttkrpCOO, mttkrpScatter, mttkrpContrib, scenarioA_X, scenarioA_U,
    facI21, List.range_succ]

/-- Witness for C1: the hypotheses of `claim_C1_mttkrp_coo` hold for the
Scenario A inputs at entry (0,0) of mode 0, and the theorem applies. -/
theorem claim_C1_witness :
    mttkrpCOO scenarioA_X scenarioA_U 0 0 0 =
      (∑ k ∈ (Finset.range scenarioA_X.nnz).filter
          (fun k => scenarioA_X.subs k 0 = 0),
        scenarioA_X.vals k * scenarioA_U.weights 0 *
          ∏ m ∈ (Finset.range scenarioA_U.nd).filter (fun m => m ≠ 0),
            (scenarioA_U.factor m).entry (scenarioA_X.subs k m) 0) ∧
      ((Finset.range scenarioA_X.nnz).filter
          (fun k => scenarioA_X.subs k 0 = 0) = ∅ →
        mttkrpCOO scenarioA_X scenarioA_U 0 0 0 = 0) :=
  claim_C1_mttkrp_coo scenarioA_X scenarioA_U 0 0 0 (by decide) (by decide)
    (by decide) (by decide) (by decide)

/-! ### The inner-product kernel

`Genten::innerprod` (Genten_MixedFormatOps.cpp): for each nonzero `i`
and each component `j`, `tmp_j = s.value(i) * lambda[j]` is multiplied
by `u[m].entry(s.subscript(i,m), j)` for every mode `m`, and all the
`tmp_j` are reduced into the scalar result.  The tiled three-level
parallel reduction is embedded by its sequential semantics: a fold over
nonzeros of a fold over components. -/

/-- The inner-product kernel, sequential semantics. -/
def innerprod (s : Sptensor) (u : Ktensor) (lambda : ℕ → ℚ) : ℚ :=
  (List.range s.nnz).foldl
    (fun d k =>
      d + (List.range u.nc).foldl
        (fun t j =>
          t + (List.range u.nd).foldl
            (fun tmp m => tmp * (u.factor m).entry (s.subs k m) j)
            (s.vals k * lambda j))
        0)
    0

/-- C3: `innerprod(s, u, lambda)` returns
`Σ_k vals[k] · Σ_j lambda[j] · Π_m U_m[subs[k,m], j]`, with `k` over the
nonzeros, `j` over the components and `m` over all modes. -/
theorem claim_C3_innerprod (s : Sptensor) (u : Ktensor) (lambda : ℕ → ℚ) :
    innerprod s u lambda =
      ∑ k ∈ Finset.range s.nnz,
        s.vals k *
          ∑ j ∈ Finset.range u.nc,
            lambda j *
              ∏ m ∈ Finset.range u.nd,
                (u.factor m).entry (s.subs k m) j := by
  unfold innerprod
  rw [foldl_add_eq_sum, zero_add]
  refine Finset.sum_congr rfl (fun k _ => ?_)
  rw [foldl_add_eq_sum, zero_add, Finset.mul_sum]
  refine Finset.sum_congr rfl (fun j _ => ?_)
  rw [foldl_mul_all]
  ring

/-! ### The permuted-COO MTTKRP kernel

`Genten::Impl::MTTKRP_PermKernelBlock::run`
(Genten_MixedFormatOps.cpp): nonzeros are visited in the order of the
mode-`n` permutation, in row blocks of `RowBlockSize` positions.  Within
a block a length-R accumulator `val` is kept; when the target row
changes, `val` is flushed into the output row and cleared, and after the
block the pending `val` is flushed into the last row.  The first and
last rows of a block are flushed with atomic adds, interior rows with
plain adds; both are additions, which is what the sequential
exact-arithmetic embedding performs. -/

/-- The per-nonzero contribution of the permuted kernel: the weights are
loaded first and multiplied by the tensor value
(`tmp.load(lambda+j); tmp *= x_val`), then the factor rows for the modes
other than `n` are multiplied in. -/
def permContrib (X : Sptensor) (u : Ktensor) (n p j : ℕ) : ℚ :=
  (List.range u.nd).foldl
    (fun t m => if m = n then t else t * (u.factor m).entry (X.subs p m) j)
    (u.weights j * X.vals p)

/-- The state threaded through one row block: the previous row
(`none` encodes `invalid_row`), the pending accumulator `val`, and the
output `v`. -/
def PermState : Type := Option ℕ × (ℕ → ℚ) × (ℕ → ℕ → ℚ)

/-- One iteration `ii` of the row-block loop of
`MTTKRP_PermKernelBlock::run`, at absolute position `i`. -/
def permStep (X : Sptensor) (u : Ktensor) (n : ℕ) (perm : ℕ → ℕ)
    (st : PermState) (i : ℕ) : PermState :=
  match st with
  | (row_prev, val, v) =>
    let row : Option ℕ := if i < X.nnz then some (X.subs (perm i) n) else none
    let flushed : (ℕ → ℚ) × (ℕ → ℕ → ℚ) :=
      if row = row_prev then (val, v)
      else
        match row_prev with
        | none => (val, v)
        | some r =>
          (fun _ => 0, fun a b => if a = r then v a b + val b else v a b)
    match row with
    | none => (none, flushed.1, flushed.2)
    | some _ =>
      (row, fun j => flushed.1 j + permContrib X u n (perm i) j, flushed.2)

/-- The flush of the pending accumulator into the last row of a block
(`if (row != invalid_row) atomic_add(&v.entry(row,j), val)`). -/
def permFlushLast (st : PermState) : ℕ → ℕ → ℚ :=
  match st with
  | (none, _, v) => v
  | (some r, val, v) => fun a b => if a = r then v a b + val b else v a b

/-- One whole row block of the permuted kernel, starting at nonzero
position `i0`. -/
def permBlockRun (X : Sptensor) (u : Ktensor) (n : ℕ) (perm : ℕ → ℕ)
    (B i0 : ℕ) (v : ℕ → ℕ → ℚ) : ℕ → ℕ → ℚ :=
  permFlushLast
    (((List.range B).map (fun ii => i0 + ii)).foldl
      (permStep X u n perm) (none, fun _ => 0, v))

/-- The permuted-COO MTTKRP: zero the output, then run every row block.
`B` is the row-block size (128 in the source). -/
def mttkrpPerm (X : Sptensor) (u : Ktensor) (n : ℕ) (perm : ℕ → ℕ)
    (B : ℕ) : ℕ → ℕ → ℚ :=
  (List.range ((X.nnz + B - 1) / B)).foldl
    (fun v t => permBlockRun X u n perm B (t * B) v) (fun _ _ => 0)

/-- What position `i` ought to add to output entry `(a, b)`: its
contribution if it is a real nonzero position targeting row `a`, and
nothing otherwise. -/
def permTerm (X : Sptensor) (u : Ktensor) (n : ℕ) (perm : ℕ → ℕ)
    (i a b : ℕ) : ℚ :=
  if i < X.nnz ∧ X.subs (perm i) n = a then permContrib X u n (perm i) b
  else 0

/-- Both contribution folds compute the same product. -/
theorem permContrib_eq_mttkrpContrib (X : Sptensor) (u : Ktensor)
    (n p j : ℕ) : permContrib X u n p j = mttkrpContrib X u n p j := by
  unfold permContrib mttkrpContrib
  rw [foldl_mul_skip, foldl_mul_skip]
  ring

/-- The state invariant of the block loop: an invalid previous row has
an all-zero pending accumulator. -/
def PermInv (st : PermState) : Prop := st.1 = none → ∀ j, st.2.1 j = 0

/-- `permStep` preserves the state invariant. -/
theorem permStep_inv (X : Sptensor) (u : Ktensor) (n : ℕ) (perm : ℕ → ℕ)
    (st : PermState) (i : ℕ) (h : PermInv st) :
    PermInv (permStep X u n perm st i) := by
  rcases st with ⟨row_prev, val, v⟩
  by_cases hi : i < X.nnz
  · intro hcontra
    simp [permStep, hi] at hcontra
  · rcases row_prev with _ | r
    · intro _ j
      simpa [permStep, hi] using h rfl j
    · intro _ j
      simp [permStep, hi]

/-- One step of the block loop moves exactly one term from "pending"
to "flushed": the flushed-out value of the new state equals that of the
old state plus the term of position `i`. -/
theorem permStep_flush (X : Sptensor) (u : Ktensor) (n : ℕ)
    (perm : ℕ → ℕ) (st : PermState) (i : ℕ) (h : PermInv st) (a b : ℕ) :
    permFlushLast (permStep X u n perm st i) a b =
      permFlushLast st a b + permTerm X u n perm i a b := by
  rcases st with ⟨row_prev, val, v⟩
  by_cases hi : i < X.nnz
  · rcases row_prev with _ | r
    · have hval : ∀ j, val j = 0 := h rfl
      by_cases hsa : X.subs (perm i) n = a
      · simp [permStep, permFlushLast, permTerm, hi, hsa, hval]
      · simp [permStep, permFlushLast, permTerm, hi, hsa]
        intro hh
        exact absurd hh.symm hsa
    · by_cases hrs : X.subs (perm i) n = r
      · by_cases hsa : X.subs (perm i) n = a
        · have hra : a = r := by rw [← hsa, hrs]
          simp only [permStep, permFlushLast, permTerm, hi, true_and]
          simp [hrs, hsa, hra]
          ring
        · have har : ¬ a = r := fun hh => hsa (hrs.symm ▸ hh.symm ▸ rfl)
          have hra : ¬ r = a := fun hh => har hh.symm
          simp [permStep, permFlushLast, permTerm, hi, hrs, hsa, har, hra]
      · by_cases hsa : X.subs (perm i) n = a
        · have har : ¬ a = r := fun hh => hrs (hsa.symm ▸ hh)
          simp [permStep, permFlushLast, permTerm, hi, hrs, hsa, har]
        · by_cases har : a = r
          · simp [permStep, permFlushLast, permTerm, hi, hrs, hsa, har]
            intro hh
            exact absurd hh.symm hrs
          · simp [permStep, permFlushLast, permTerm, hi, hrs, hsa, har]
            intro hh
            exact absurd hh.symm hsa
  · have hterm : ¬ (i < X.nnz ∧ X.subs (perm i) n = a) := fun hh => hi hh.1
    rcases row_prev with _ | r
    · simp [permStep, permFlushLast, permTerm, hi]
    · by_cases har : a = r
      · simp [permStep, permFlushLast, permTerm, hi, har]
      · simp [permStep, permFlushLast, permTerm, hi, har]

/-- Folding the block loop over any list of positions adds exactly the
terms of those positions (reading the state through the final flush). -/
theorem permStep_foldl (X : Sptensor) (u : Ktensor) (n : ℕ)
    (perm : ℕ → ℕ) :
    ∀ (L : List ℕ) (st : PermState), PermInv st → ∀ (a b : ℕ),
      permFlushLast (L.foldl (permStep X u n perm) st) a b =
        permFlushLast st a b +
          (L.map (fun i => permTerm X u n perm i a b)).sum := by
  intro L
  induction L with
  | nil => intro st _ a b; simp
  | cons i L ih =>
    intro st h a b
    simp only [List.foldl_cons, List.map_cons, List.sum_cons]
    rw [ih _ (permStep_inv X u n perm st i h), permStep_flush X u n perm st i h]
    ring

/-- Sum of a function mapped over `List.range` agrees with the
`Finset.range` sum. -/
theorem list_range_map_sum (f : ℕ → ℚ) :
    ∀ N, ((List.range N).map f).sum = ∑ i ∈ Finset.range N, f i := by
  intro N
  induction N with
  | zero => simp
  | succ N ih =>
    rw [List.range_succ, List.map_append, List.sum_append,
      Finset.sum_range_succ, ih]
    simp

/-- Splitting a range sum at `a`. -/
theorem sum_range_split (f : ℕ → ℚ) (a : ℕ) :
    ∀ c, ∑ i ∈ Finset.range (a + c), f i =
      (∑ i ∈ Finset.range a, f i) + ∑ i ∈ Finset.range c, f (a + i) := by
  intro c
  induction c with
  | zero => simp
  | succ c ih =>
    rw [← Nat.add_assoc, Finset.sum_range_succ, Finset.sum_range_succ, ih]
    ring

/-- A row block starting at position `i0` adds exactly the terms of the
positions `i0, …, i0 + B - 1`. -/
theorem permBlockRun_eq (X : Sptensor) (u : Ktensor) (n : ℕ)
    (perm : ℕ → ℕ) (B i0 : ℕ) (v : ℕ → ℕ → ℚ) (a b : ℕ) :
    permBlockRun X u n perm B i0 v a b =
      v a b + ∑ ii ∈ Finset.range B, permTerm X u n perm (i0 + ii) a b := by
  unfold permBlockRun
  rw [permStep_foldl X u n perm _ (none, fun _ => 0, v) (fun _ j => rfl)]
  rw [List.map_map]
  have : ((fun i => permTerm X u n perm i a b) ∘ fun ii => i0 + ii) =
      fun ii => permTerm X u n perm (i0 + ii) a b := rfl
  rw [this, list_range_map_sum]
  rfl

/-- Running the first `T` row blocks adds the terms of the first `T*B`
positions. -/
theorem mttkrpPerm_blocks (X : Sptensor) (u : Ktensor) (n : ℕ)
    (perm : ℕ → ℕ) (B : ℕ) :
    ∀ (T : ℕ) (v : ℕ → ℕ → ℚ) (a b : ℕ),
      (List.range T).foldl
          (fun v t => permBlockRun X u n perm B (t * B) v) v a b =
        v a b + ∑ i ∈ Finset.range (T * B), permTerm X u n perm i a b := by
  intro T
  induction T with
  | zero => intro v a b; simp
  | succ T ih =>
    intro v a b
    rw [List.range_succ, List.foldl_append]
    simp only [List.foldl_cons, List.foldl_nil]
    rw [permBlockRun_eq, ih, Nat.succ_mul, sum_range_split]
    ring

/-- A map of `[0, nnz)` into itself that is injective is surjective. -/
theorem perm_surj (X : Sptensor) (perm : ℕ → ℕ)
    (hlt : ∀ i, i < X.nnz → perm i < X.nnz)
    (hinj : ∀ i, i < X.nnz → ∀ j, j < X.nnz → perm i = perm j → i = j) :
    ∀ k, k < X.nnz → ∃ i, i < X.nnz ∧ perm i = k := by
  intro k hk
  have hsurj := Finset.surj_on_of_inj_on_of_card_le
    (s := Finset.range X.nnz) (t := Finset.range X.nnz)
    (fun i _ => perm i)
    (fun i hi => Finset.mem_range.mpr (hlt i (Finset.mem_range.mp hi)))
    (fun i j hi hj hij =>
      hinj i (Finset.mem_range.mp hi) j (Finset.mem_range.mp hj) hij)
    le_rfl
  obtain ⟨i, hi, hik⟩ := hsurj k (Finset.mem_range.mpr hk)
  exact ⟨i, Finset.mem_range.mp hi, by simpa using hik.symm⟩

/-- Reindexing a filtered contribution sum along a permutation of the
nonzero positions. -/
theorem sum_perm_filter (X : Sptensor) (u : Ktensor) (n : ℕ)
    (perm : ℕ → ℕ)
    (hlt : ∀ i, i < X.nnz → perm i < X.nnz)
    (hinj : ∀ i, i < X.nnz → ∀ j, j < X.nnz → perm i = perm j → i = j)
    (a b : ℕ) :
    ∑ i ∈ (Finset.range X.nnz).filter (fun i => X.subs (perm i) n = a),
        mttkrpContrib X u n (perm i) b =
      ∑ k ∈ (Finset.range X.nnz).filter (fun k => X.subs k n = a),
        mttkrpContrib X u n k b := by
  have hsurj := Finset.surj_on_of_inj_on_of_card_le
    (s := Finset.range X.nnz) (t := Finset.range X.nnz)
    (fun i _ => perm i)
    (fun i hi => Finset.mem_range.mpr (hlt i (Finset.mem_range.mp hi)))
    (fun i j hi hj hij =>
      hinj i (Finset.mem_range.mp hi) j (Finset.mem_range.mp hj) hij)
    le_rfl
  refine Finset.sum_bij (fun i _ => perm i) ?_ ?_ ?_ ?_
  · intro i hi
    rw [Finset.mem_filter] at hi ⊢
    exact ⟨Finset.mem_range.mpr (hlt i (Finset.mem_range.mp hi.1)), hi.2⟩
  · intro i hi j hj hij
    rw [Finset.mem_filter] at hi hj
    exact hinj i (Finset.mem_range.mp hi.1) j (Finset.mem_range.mp hj.1) hij
  · intro k hk
    rw [Finset.mem_filter] at hk
    obtain ⟨i, hi, hik⟩ := hsurj k hk.1
    have hik2 : perm i = k := by simpa using hik.symm
    refine ⟨i, Finset.mem_filter.mpr ⟨hi, ?_⟩, hik2⟩
    rw [hik2]
    exact hk.2
  · intro i _
    rfl

/-- The permuted-COO MTTKRP equals the COO MTTKRP for any block size
`B ≥ 1` and any permutation of the nonzero positions. -/
theorem mttkrpPerm_eq_COO (X : Sptensor) (u : Ktensor) (n : ℕ)
    (perm : ℕ → ℕ) (B : ℕ) (hB : 0 < B)
    (hlt : ∀ i, i < X.nnz → perm i < X.nnz)
    (hinj : ∀ i, i < X.nnz → ∀ j, j < X.nnz → perm i = perm j → i = j)
    (a b : ℕ) :
    mttkrpPerm X u n perm B a b = mttkrpCOO X u n a b := by
  have hle : X.nnz ≤ ((X.nnz + B - 1) / B) * B := by
    have h1 := Nat.div_add_mod (X.nnz + B - 1) B
    have h2 : (X.nnz + B - 1) % B < B := Nat.mod_lt _ hB
    rw [Nat.mul_comm]
    generalize B * ((X.nnz + B - 1) / B) = t at h1 ⊢
    omega
  unfold mttkrpPerm
  rw [mttkrpPerm_blocks]
  have hzero : ∀ i ∈ Finset.range (((X.nnz + B - 1) / B) * B),
      i ∉ Finset.range X.nnz → permTerm X u n perm i a b = 0 := by
    intro i _ hni
    unfold permTerm
    rw [if_neg (fun hh => hni (Finset.mem_range.mpr hh.1))]
  rw [← Finset.sum_subset (Finset.range_subset.mpr hle) hzero]
  have hterm : ∀ i ∈ Finset.range X.nnz,
      permTerm X u n perm i a b =
        if X.subs (perm i) n = a then mttkrpContrib X u n (perm i) b
        else 0 := by
    intro i hi
    unfold permTerm
    rw [Finset.mem_range] at hi
    by_cases hs : X.subs (perm i) n = a
    · rw [if_pos ⟨hi, hs⟩, if_pos hs, permContrib_eq_mttkrpContrib]
    · rw [if_neg (fun hh => hs hh.2), if_neg hs]
  rw [Finset.sum_congr rfl hterm, ← Finset.sum_filter,
    sum_perm_filter X u n perm hlt hinj, mttkrpCOO_eq_sum]
  simp

/-! ### The row-indexed MTTKRP kernel

`Genten::mttkrp(SptensorT_row, ...)` (Genten_MixedFormatOps.cpp): one
worker per output row `row`; it reads the permutation positions
`i ∈ [rowptr[row], rowptr[row+1])`, accumulates the contribution of
each `perm i` (value times weight times the factor rows of the modes
other than `n`, the same product as the COO kernel), and adds the
accumulated value into row `k = subs(perm(rowptr[row]), n)` of the
output with plain stores. -/

/-- The body of the row-indexed kernel for one output row `r`. -/
def mttkrpRowStep (X : Sptensor) (u : Ktensor) (n : ℕ) (perm rp : ℕ → ℕ)
    (v : ℕ → ℕ → ℚ) (r : ℕ) : ℕ → ℕ → ℚ :=
  if rp (r+1) = rp r then v
  else
    let k := X.subs (perm (rp r)) n
    fun a j =>
      if a = k then
        v a j + ∑ t ∈ Finset.range (rp (r+1) - rp r),
          mttkrpContrib X u n (perm (rp r + t)) j
      else v a j

/-- The row-indexed MTTKRP: zero the output, then run the per-row
workers. -/
def mttkrpRow (X : Sptensor) (u : Ktensor) (n : ℕ) (perm rp : ℕ → ℕ) :
    ℕ → ℕ → ℚ :=
  (List.range (X.siz n)).foldl (mttkrpRowStep X u n perm rp) (fun _ _ => 0)

/-- Chained monotonicity of a row-pointer array. -/
theorem rp_le_of_le (X : Sptensor) (n : ℕ) (rp : ℕ → ℕ)
    (Hmono : ∀ r, r < X.siz n → rp r ≤ rp (r+1)) :
    ∀ (d r : ℕ), r + d ≤ X.siz n → rp r ≤ rp (r + d) := by
  intro d
  induction d with
  | zero => intro r _; exact le_rfl
  | succ d ih =>
    intro r h
    have h1 : rp r ≤ rp (r + d) := ih r (by omega)
    have h2 : rp (r + d) ≤ rp (r + d + 1) := Hmono (r + d) (by omega)
    calc rp r ≤ rp (r + d) := h1
      _ ≤ rp (r + (d+1)) := by rw [← Nat.add_assoc]; exact h2

/-- Every position below `rp R` lies in some segment `[rp r, rp (r+1))`
with `r < R`. -/
theorem seg_exists (X : Sptensor) (n : ℕ) (rp : ℕ → ℕ) (H0 : rp 0 = 0) :
    ∀ (R : ℕ), ∀ i, i < rp R → ∃ r, r < R ∧ rp r ≤ i ∧ i < rp (r+1) := by
  intro R
  induction R with
  | zero => intro i hi; rw [H0] at hi; omega
  | succ R ih =>
    intro i hi
    by_cases hR : i < rp R
    · obtain ⟨r, hr, h1, h2⟩ := ih i hR
      exact ⟨r, by omega, h1, h2⟩
    · exact ⟨R, by omega, by omega, hi⟩

/-- After processing rows `0 … R-1`, row `a < R` of the output holds the
sum over its segment and every other row is still zero. -/
theorem mttkrpRow_foldl (X : Sptensor) (u : Ktensor) (n : ℕ)
    (perm rp : ℕ → ℕ)
    (HS : rp (X.siz n) = X.nnz)
    (Hmono : ∀ r, r < X.siz n → rp r ≤ rp (r+1))
    (Hrow : ∀ r, r < X.siz n → ∀ i, i < X.nnz → rp r ≤ i → i < rp (r+1) →
      X.subs (perm i) n = r) :
    ∀ (R : ℕ), R ≤ X.siz n → ∀ (a b : ℕ),
      (List.range R).foldl (mttkrpRowStep X u n perm rp) (fun _ _ => 0) a b =
        if a < R then
          ∑ t ∈ Finset.range (rp (a+1) - rp a),
            mttkrpContrib X u n (perm (rp a + t)) b
        else 0 := by
  intro R
  induction R with
  | zero => intro _ a b; simp
  | succ R ih =>
    intro hR a b
    rw [List.range_succ, List.foldl_append]
    simp only [List.foldl_cons, List.foldl_nil]
    have hRlt : R < X.siz n := by omega
    by_cases hempty : rp (R+1) = rp R
    · rw [mttkrpRowStep, if_pos hempty, ih (by omega)]
      by_cases ha : a < R
      · rw [if_pos ha, if_pos (by omega)]
      · rw [if_neg ha]
        by_cases ha2 : a < R + 1
        · have haR : a = R := by omega
          rw [if_pos ha2, haR, hempty]
          simp
        · rw [if_neg ha2]
    · have hlt : rp R < rp (R+1) := lt_of_le_of_ne (Hmono R hRlt)
        (fun hh => hempty hh.symm)
      have hnnz : rp (R+1) ≤ X.nnz := by
        have := rp_le_of_le X n rp Hmono (X.siz n - (R+1)) (R+1) (by omega)
        rw [show R + 1 + (X.siz n - (R+1)) = X.siz n by omega, HS] at this
        exact this
      have hk : X.subs (perm (rp R)) n = R :=
        Hrow R hRlt (rp R) (by omega) le_rfl hlt
      rw [mttkrpRowStep, if_neg hempty]
      simp only [hk]
      by_cases ha : a = R
      · rw [if_pos ha, ih (by omega), ha, if_neg (by omega), if_pos (by omega)]
        ring
      · rw [if_neg ha, ih (by omega)]
        by_cases ha2 : a < R
        · rw [if_pos ha2, if_pos (by omega)]
        · rw [if_neg ha2, if_neg (by omega)]

/-- The row-indexed MTTKRP equals the COO MTTKRP for any valid
row-pointer array over a permutation of the nonzero positions. -/
theorem mttkrpRow_eq_COO (X : Sptensor) (u : Ktensor) (n : ℕ)
    (perm rp : ℕ → ℕ)
    (hlt : ∀ i, i < X.nnz → perm i < X.nnz)
    (hinj : ∀ i, i < X.nnz → ∀ j, j < X.nnz → perm i = perm j → i = j)
    (hbound : ∀ k, k < X.nnz → X.subs k n < X.siz n)
    (H0 : rp 0 = 0)
    (HS : rp (X.siz n) = X.nnz)
    (Hmono : ∀ r, r < X.siz n → rp r ≤ rp (r+1))
    (Hrow : ∀ r, r < X.siz n → ∀ i, i < X.nnz → rp r ≤ i → i < rp (r+1) →
      X.subs (perm i) n = r)
    (a b : ℕ) :
    mttkrpRow X u n perm rp a b = mttkrpCOO X u n a b := by
  rw [mttkrpRow, mttkrpRow_foldl X u n perm rp HS Hmono Hrow (X.siz n) le_rfl,
    mttkrpCOO_eq_sum]
  by_cases ha : a < X.siz n
  · rw [if_pos ha]
    have hnnz : rp (a+1) ≤ X.nnz := by
      have := rp_le_of_le X n rp Hmono (X.siz n - (a+1)) (a+1) (by omega)
      rw [show a + 1 + (X.siz n - (a+1)) = X.siz n by omega, HS] at this
      exact this
    have hIco : Finset.Ico (rp a) (rp (a+1)) =
        (Finset.range X.nnz).filter (fun i => X.subs (perm i) n = a) := by
      ext i
      rw [Finset.mem_Ico, Finset.mem_filter, Finset.mem_range]
      constructor
      · intro ⟨h1, h2⟩
        have hi : i < X.nnz := by omega
        exact ⟨hi, Hrow a ha i hi h1 h2⟩
      · intro ⟨hi, hcond⟩
        have : i < rp (X.siz n) := by omega
        obtain ⟨r, hr, h1, h2⟩ := seg_exists X n rp H0 (X.siz n) i this
        have : X.subs (perm i) n = r := Hrow r hr i hi h1 h2
        have hra : r = a := by rw [← hcond, this]
        rw [hra] at h1 h2
        exact ⟨h1, h2⟩
    rw [show (∑ t ∈ Finset.range (rp (a+1) - rp a),
          mttkrpContrib X u n (perm (rp a + t)) b) =
        ∑ i ∈ Finset.Ico (rp a) (rp (a+1)),
          mttkrpContrib X u n (perm i) b from
      (Finset.sum_Ico_eq_sum_range
        (fun i => mttkrpContrib X u n (perm i) b) (rp a) (rp (a+1))).symm]
    rw [hIco, sum_perm_filter X u n perm hlt hinj]
  · rw [if_neg ha]
    have hempty : (Finset.range X.nnz).filter (fun k => X.subs k n = a) = ∅ := by
      rw [Finset.filter_eq_empty_iff]
      intro k hk
      rw [Finset.mem_range] at hk
      have := hbound k hk
      omega
    rw [hempty, Finset.sum_empty]

/-- C2: for a sparse tensor whose mode-`n` permutation is sorted (as
built by `fillComplete`) with a valid row-pointer array, the
permuted-COO MTTKRP (row-block segmented accumulation, any block size
`B ≥ 1`) and the row-indexed MTTKRP (one worker per output row using
`rowptr`) compute, under exact arithmetic, the same output as the COO
MTTKRP at every entry. -/
theorem claim_C2_variants_agree (X : Sptensor) (u : Ktensor) (n : ℕ)
    (perm rp : ℕ → ℕ) (B a b : ℕ)
    (hB : 0 < B)
    (hnd : X.nd = u.nd) (hn : n < X.nd)
    (hsort : ∀ i, i < X.nnz → ∀ j, j < X.nnz → i ≤ j →
      X.subs (perm i) n ≤ X.subs (perm j) n)
    (hlt : ∀ i, i < X.nnz → perm i < X.nnz)
    (hinj : ∀ i, i < X.nnz → ∀ j, j < X.nnz → perm i = perm j → i = j)
    (hbound : ∀ k, k < X.nnz → X.subs k n < X.siz n)
    (H0 : rp 0 = 0)
    (HS : rp (X.siz n) = X.nnz)
    (Hmono : ∀ r, r < X.siz n → rp r ≤ rp (r+1))
    (Hrow : ∀ r, r < X.siz n → ∀ i, i < X.nnz → rp r ≤ i → i < rp (r+1) →
      X.subs (perm i) n = r) :
    mttkrpPerm X u n perm B a b = mttkrpCOO X u n a b ∧
    mttkrpRow X u n perm rp a b = mttkrpCOO X u n a b :=
  ⟨mttkrpPerm_eq_COO X u n perm B hB hlt hinj a b,
   mttkrpRow_eq_COO X u n perm rp hlt hinj hbound H0 HS Hmono Hrow a b⟩

/-- The mode-0 permutation of the Scenario A tensor, as a stable sort of
the nonzeros by their mode-0 subscript: positions 0,1,2 map to nonzeros
0,2,1. -/
def scenarioA_perm0 : ℕ → ℕ := fun i =>
  match i with
  | 0 => 0
  | 1 => 2
  | 2 => 1
  | _ => 0

/-- The mode-0 row-pointer array of the Scenario A tensor: rows 0 and 1
hold nonzero positions [0,2) and [2,3). -/
def scenarioA_rowptr0 : ℕ → ℕ := fun r =>
  match r with
  | 0 => 0
  | 1 => 2
  | _ => 3

/-- Witness for C2: the hypotheses hold for the Scenario A tensor at
mode 0 with block size 2, and the theorem applies at entry (0,0). -/
theorem claim_C2_witness :
    mttkrpPerm scenarioA_X scenarioA_U 0 scenarioA_perm0 2 0 0 =
      mttkrpCOO scenarioA_X scenarioA_U 0 0 0 ∧
    mttkrpRow scenarioA_X scenarioA_U 0 scenarioA_perm0 scenarioA_rowptr0 0 0 =
      mttkrpCOO scenarioA_X scenarioA_U 0 0 0 :=
  claim_C2_variants_agree scenarioA_X scenarioA_U 0
    scenarioA_perm0 scenarioA_rowptr0 2 0 0
    (by decide) (by decide) (by decide) (by decide) (by decide) (by decide)
    (by decide) (by decide) (by decide) (by decide) (by decide)

/-! ### Row-pointer construction

`createRowPtrImpl` (Genten_Sptensor_row.cpp): for a mode `n`, iteration
`i` of a parallel loop over `[0, nnz]` writes into the row-pointer
array: iteration 0 writes 0 into cells `[0, subs(perm(0),n)]`;
iteration `nnz` writes `nnz` into cells `(subs(perm(nnz-1),n), siz[n]]`;
an interior iteration `i` whose subscript differs from its predecessor's
writes `i` into cells `(subs(perm(i-1),n), subs(perm(i),n)]`.  The array
is allocated without initialization, embedded here as an arbitrary
starting function `init`. -/

/-- One iteration of the `createRowPtrImpl` write loop. -/
def rowPtrStep (X : Sptensor) (n : ℕ) (perm : ℕ → ℕ)
    (rowptr : ℕ → ℕ) (i : ℕ) : ℕ → ℕ :=
  if i = 0 then
    fun k => if k ≤ X.subs (perm 0) n then 0 else rowptr k
  else if i = X.nnz then
    fun k =>
      if X.subs (perm (X.nnz - 1)) n + 1 ≤ k ∧ k ≤ X.siz n then X.nnz
      else rowptr k
  else if X.subs (perm i) n ≠ X.subs (perm (i-1)) n then
    fun k =>
      if X.subs (perm (i-1)) n + 1 ≤ k ∧ k ≤ X.subs (perm i) n then i
      else rowptr k
  else rowptr

/-- The row-pointer array built by `createRowPtrImpl` for mode `n`,
starting from the uninitialized contents `init`. -/
def createRowPtrImpl (X : Sptensor) (n : ℕ) (perm : ℕ → ℕ)
    (init : ℕ → ℕ) : ℕ → ℕ :=
  (List.range (X.nnz + 1)).foldl (rowPtrStep X n perm) init

/-- Whether iteration `i` of the write loop writes into cell `k`. -/
def rowPtrWrites (X : Sptensor) (n : ℕ) (perm : ℕ → ℕ) (i k : ℕ) : Bool :=
  if i = 0 then decide (k ≤ X.subs (perm 0) n)
  else if i = X.nnz then
    decide (X.subs (perm (X.nnz - 1)) n + 1 ≤ k ∧ k ≤ X.siz n)
  else
    decide (X.subs (perm i) n ≠ X.subs (perm (i-1)) n ∧
      X.subs (perm (i-1)) n + 1 ≤ k ∧ k ≤ X.subs (perm i) n)

/-- Every write of iteration `i` writes the value `i`. -/
theorem rowPtrStep_sem (X : Sptensor) (n : ℕ) (perm : ℕ → ℕ)
    (rp : ℕ → ℕ) (i k : ℕ) :
    rowPtrStep X n perm rp i k =
      if rowPtrWrites X n perm i k then i else rp k := by
  unfold rowPtrStep rowPtrWrites
  by_cases h0 : i = 0
  · subst h0
    by_cases hk : k ≤ X.subs (perm 0) n <;> simp [hk]
  · by_cases hz : i = X.nnz
    · subst hz
      simp only [if_neg h0]
      by_cases hk : X.subs (perm (X.nnz - 1)) n + 1 ≤ k ∧ k ≤ X.siz n <;>
        simp [hk]
    · simp only [if_neg h0, if_neg hz]
      by_cases hne : X.subs (perm i) n ≠ X.subs (perm (i-1)) n
      · by_cases hk : X.subs (perm (i-1)) n + 1 ≤ k ∧ k ≤ X.subs (perm i) n <;>
          simp [hne, hk]
      · simp [hne]

/-- If every iteration that writes cell `k` writes the same value `c`,
the fold leaves cell `k` at `c` when some iteration writes it, and at
its initial contents when none does. -/
theorem rowPtr_foldl (X : Sptensor) (n : ℕ) (perm : ℕ → ℕ) (k c : ℕ) :
    ∀ (L : List ℕ) (init : ℕ → ℕ),
      (∀ i ∈ L, rowPtrWrites X n perm i k = true → i = c) →
      ((∃ i ∈ L, rowPtrWrites X n perm i k = true) →
        (L.foldl (rowPtrStep X n perm) init) k = c) ∧
      ((∀ i ∈ L, rowPtrWrites X n perm i k = false) →
        (L.foldl (rowPtrStep X n perm) init) k = init k) := by
  intro L
  induction L with
  | nil =>
    intro init _
    refine ⟨fun h => ?_, fun _ => rfl⟩
    obtain ⟨i, hi, _⟩ := h
    exact absurd hi (List.not_mem_nil i)
  | cons i L ih =>
    intro init hall
    have hall' : ∀ j ∈ L, rowPtrWrites X n perm j k = true → j = c :=
      fun j hj => hall j (List.mem_cons_of_mem i hj)
    simp only [List.foldl_cons]
    by_cases hw : rowPtrWrites X n perm i k = true
    · have hic : i = c := hall i (List.mem_cons_self i L) hw
      have hinit : (rowPtrStep X n perm init i) k = c := by
        rw [rowPtrStep_sem, if_pos hw, hic]
      constructor
      · intro _
        by_cases hex : ∃ j ∈ L, rowPtrWrites X n perm j k = true
        · exact (ih (rowPtrStep X n perm init i) hall').1 hex
        · have hnone : ∀ j ∈ L, rowPtrWrites X n perm j k = false := by
            intro j hj
            by_contra hc
            exact hex ⟨j, hj, by simpa using hc⟩
          rw [(ih (rowPtrStep X n perm init i) hall').2 hnone]
          exact hinit
      · intro hnone
        exact absurd hw (by simp [hnone i (List.mem_cons_self i L)])
    · have hinit : (rowPtrStep X n perm init i) k = init k := by
        rw [rowPtrStep_sem, if_neg hw]
      constructor
      · intro hex
        obtain ⟨j, hj, hwj⟩ := hex
        rcases List.mem_cons.mp hj with hji | hjL
        · exact absurd hwj (hji ▸ hw)
        · exact (ih (rowPtrStep X n perm init i) hall').1 ⟨j, hjL, hwj⟩
      · intro hnone
        rw [(ih (rowPtrStep X n perm init i) hall').2
          (fun j hj => hnone j (List.mem_cons_of_mem i hj)), hinit]

/-- The number of nonzero positions whose mode-`n` subscript is below
row `k` — the closed form of the row-pointer entries. -/
def rowPtrCount (X : Sptensor) (n : ℕ) (perm : ℕ → ℕ) (k : ℕ) : ℕ :=
  ((Finset.range X.nnz).filter (fun i => X.subs (perm i) n < k)).card

/-- Under a sorted permutation, every iteration that writes cell `k`
writes `rowPtrCount k`. -/
theorem rowPtrWrites_val (X : Sptensor) (n : ℕ) (perm : ℕ → ℕ)
    (hnz : 0 < X.nnz)
    (hsort : ∀ i, i < X.nnz → ∀ j, j < X.nnz → i ≤ j →
      X.subs (perm i) n ≤ X.subs (perm j) n) :
    ∀ i ∈ List.range (X.nnz + 1), ∀ k,
      rowPtrWrites X n perm i k = true → i = rowPtrCount X n perm k := by
  intro i hi k hw
  rw [List.mem_range] at hi
  unfold rowPtrWrites at hw
  unfold rowPtrCount
  by_cases h0 : i = 0
  · subst h0
    rw [if_pos rfl, decide_eq_true_eq] at hw
    have : (Finset.range X.nnz).filter (fun j => X.subs (perm j) n < k) = ∅ := by
      rw [Finset.filter_eq_empty_iff]
      intro j hj
      rw [Finset.mem_range] at hj
      have := hsort 0 hnz j hj (Nat.zero_le j)
      omega
    rw [this]
    rfl
  · by_cases hz : i = X.nnz
    · subst hz
      rw [if_neg h0, if_pos rfl, decide_eq_true_eq] at hw
      have : (Finset.range X.nnz).filter (fun j => X.subs (perm j) n < k) =
          Finset.range X.nnz := by
        rw [Finset.filter_true_of_mem]
        intro j hj
        rw [Finset.mem_range] at hj
        have := hsort j hj (X.nnz - 1) (by omega) (by omega)
        omega
      rw [this, Finset.card_range]
    · rw [if_neg h0, if_neg hz, decide_eq_true_eq] at hw
      obtain ⟨hne, h1, h2⟩ := hw
      have hi2 : i < X.nnz := by omega
      have : (Finset.range X.nnz).filter (fun j => X.subs (perm j) n < k) =
          Finset.range i := by
        ext j
        rw [Finset.mem_filter, Finset.mem_range, Finset.mem_range]
        constructor
        · intro ⟨hj, hjk⟩
          by_contra hc
          have := hsort i hi2 j hj (by omega)
          omega
        · intro hj
          have hjn : j < X.nnz := by omega
          have := hsort j hjn (i-1) (by omega) (by omega)
          exact ⟨hjn, by omega⟩
      rw [this, Finset.card_range]

/-- Every cell `k ≤ siz[n]` is written by some iteration. -/
theorem rowPtrWrites_exists (X : Sptensor) (n : ℕ) (perm : ℕ → ℕ)
    (hnz : 0 < X.nnz) :
    ∀ k, k ≤ X.siz n →
      ∃ i ∈ List.range (X.nnz + 1), rowPtrWrites X n perm i k = true := by
  intro k hk
  by_cases hfirst : k ≤ X.subs (perm 0) n
  · refine ⟨0, List.mem_range.mpr (by omega), ?_⟩
    unfold rowPtrWrites
    rw [if_pos rfl, decide_eq_true_eq]
    exact hfirst
  · by_cases hlast : X.subs (perm (X.nnz - 1)) n < k
    · refine ⟨X.nnz, List.mem_range.mpr (by omega), ?_⟩
      unfold rowPtrWrites
      rw [if_neg (by omega), if_pos rfl, decide_eq_true_eq]
      omega
    · have hex : ∃ i, k ≤ X.subs (perm i) n := ⟨X.nnz - 1, by omega⟩
      set i0 := Nat.find hex with hi0
      have hP : k ≤ X.subs (perm i0) n := Nat.find_spec hex
      have hmin : i0 ≤ X.nnz - 1 := Nat.find_min' hex (by omega)
      have hne0 : i0 ≠ 0 := by
        intro hc
        rw [hc] at hP
        omega
      have hprev : ¬ k ≤ X.subs (perm (i0 - 1)) n :=
        Nat.find_min hex (by omega)
      refine ⟨i0, List.mem_range.mpr (by omega), ?_⟩
      unfold rowPtrWrites
      rw [if_neg hne0, if_neg (by omega), decide_eq_true_eq]
      exact ⟨by omega, by omega, hP⟩

/-- The closed form of `createRowPtrImpl`: for a sorted permutation and
any cell `k ≤ siz[n]`, the produced entry equals the number of nonzero
positions whose mode-`n` subscript is below `k`, independently of the
uninitialized contents. -/
theorem createRowPtr_eq_count (X : Sptensor) (n : ℕ) (perm : ℕ → ℕ)
    (init : ℕ → ℕ) (hnz : 0 < X.nnz)
    (hsort : ∀ i, i < X.nnz → ∀ j, j < X.nnz → i ≤ j →
      X.subs (perm i) n ≤ X.subs (perm j) n)
    (k : ℕ) (hk : k ≤ X.siz n) :
    createRowPtrImpl X n perm init k = rowPtrCount X n perm k := by
  unfold createRowPtrImpl
  exact (rowPtr_foldl X n perm k (rowPtrCount X n perm k)
      (List.range (X.nnz + 1)) init
      (fun i hi hw => rowPtrWrites_val X n perm hnz hsort i hi k hw)).1
    (rowPtrWrites_exists X n perm hnz k hk)

/-- `rowPtrCount` is monotone in the row index. -/
theorem rowPtrCount_mono (X : Sptensor) (n : ℕ) (perm : ℕ → ℕ)
    (k1 k2 : ℕ) (h : k1 ≤ k2) :
    rowPtrCount X n perm k1 ≤ rowPtrCount X n perm k2 := by
  apply Finset.card_le_card
  intro j hj
  rw [Finset.mem_filter] at hj ⊢
  exact ⟨hj.1, by omega⟩

/-- `rowPtrCount r ≤ i` iff the `i`-th sorted subscript is at least
`r`. -/
theorem rowPtrCount_le_iff (X : Sptensor) (n : ℕ) (perm : ℕ → ℕ)
    (hsort : ∀ i, i < X.nnz → ∀ j, j < X.nnz → i ≤ j →
      X.subs (perm i) n ≤ X.subs (perm j) n)
    (i : ℕ) (hi : i < X.nnz) (r : ℕ) :
    rowPtrCount X n perm r ≤ i ↔ r ≤ X.subs (perm i) n := by
  unfold rowPtrCount
  constructor
  · intro hle
    by_contra hc
    have hsub : Finset.range (i+1) ⊆
        (Finset.range X.nnz).filter (fun j => X.subs (perm j) n < r) := by
      intro j hj
      rw [Finset.mem_range] at hj
      rw [Finset.mem_filter, Finset.mem_range]
      have hjn : j < X.nnz := by omega
      have := hsort j hjn i hi (by omega)
      exact ⟨hjn, by omega⟩
    have := Finset.card_le_card hsub
    rw [Finset.card_range] at this
    omega
  · intro hr
    have hsub : (Finset.range X.nnz).filter (fun j => X.subs (perm j) n < r) ⊆
        Finset.range i := by
      intro j hj
      rw [Finset.mem_filter, Finset.mem_range] at hj
      rw [Finset.mem_range]
      by_contra hc
      have := hsort i hi j hj.1 (by omega)
      omega
    have := Finset.card_le_card hsub
    rw [Finset.card_range] at this
    omega

/-- C4: for a sparse tensor with at least one nonzero whose mode-`n`
permutation orders the subscripts non-decreasingly, `createRowPtr`
builds an array with `rowptr[0] = 0`, `rowptr[siz[n]] = nnz`, monotone
entries, segments reproducing exactly the nonzeros of each row
(`{perm i : rowptr[r] ≤ i < rowptr[r+1]} = {k : subs[k,n] = r}`),
zero entries up to the smallest present row, `nnz` entries beyond the
largest present row, and equal consecutive entries at every empty row —
independently of the array's uninitialized contents `init`. -/
theorem claim_C4_createRowPtr (X : Sptensor) (n : ℕ)
    (perm init : ℕ → ℕ)
    (hnz : 0 < X.nnz)
    (hsort : ∀ i, i < X.nnz → ∀ j, j < X.nnz → i ≤ j →
      X.subs (perm i) n ≤ X.subs (perm j) n)
    (hlt : ∀ i, i < X.nnz → perm i < X.nnz)
    (hinj : ∀ i, i < X.nnz → ∀ j, j < X.nnz → perm i = perm j → i = j)
    (hbound : ∀ k, k < X.nnz → X.subs k n < X.siz n) :
    createRowPtrImpl X n perm init 0 = 0 ∧
    createRowPtrImpl X n perm init (X.siz n) = X.nnz ∧
    (∀ r, r < X.siz n →
      createRowPtrImpl X n perm init r ≤
        createRowPtrImpl X n perm init (r+1)) ∧
    (∀ r, r < X.siz n →
      (Finset.Ico (createRowPtrImpl X n perm init r)
          (createRowPtrImpl X n perm init (r+1))).image perm =
        (Finset.range X.nnz).filter (fun k => X.subs k n = r)) ∧
    (∀ k, k ≤ X.subs (perm 0) n → createRowPtrImpl X n perm init k = 0) ∧
    (∀ k, X.subs (perm (X.nnz - 1)) n < k → k ≤ X.siz n →
      createRowPtrImpl X n perm init k = X.nnz) ∧
    (∀ r, r < X.siz n → (∀ k, k < X.nnz → X.subs k n ≠ r) →
      createRowPtrImpl X n perm init (r+1) =
        createRowPtrImpl X n perm init r) := by
  have hc : ∀ k, k ≤ X.siz n →
      createRowPtrImpl X n perm init k = rowPtrCount X n perm k :=
    fun k hk => createRowPtr_eq_count X n perm init hnz hsort k hk
  have hcnnz : rowPtrCount X n perm (X.siz n) = X.nnz := by
    unfold rowPtrCount
    rw [Finset.filter_true_of_mem, Finset.card_range]
    intro j hj
    rw [Finset.mem_range] at hj
    exact hbound _ (hlt j hj)
  have hseg : ∀ r, r < X.siz n → ∀ i, i < X.nnz →
      (rowPtrCount X n perm r ≤ i ∧ i < rowPtrCount X n perm (r+1) ↔
        X.subs (perm i) n = r) := by
    intro r hr i hi
    have h1 := rowPtrCount_le_iff X n perm hsort i hi r
    have h2 := rowPtrCount_le_iff X n perm hsort i hi (r+1)
    constructor
    · intro ⟨ha, hb⟩
      have hge := h1.mp ha
      have hnle : ¬ (rowPtrCount X n perm (r+1) ≤ i) := by omega
      have := fun hh => hnle (h2.mpr hh)
      omega
    · intro hival
      refine ⟨h1.mpr (by omega), ?_⟩
      by_contra hc2
      have := h2.mp (by omega)
      omega
  refine ⟨?_, ?_, ?_, ?_, ?_, ?_, ?_⟩
  · rw [hc 0 (Nat.zero_le _)]
    simp [rowPtrCount]
  · rw [hc (X.siz n) le_rfl, hcnnz]
  · intro r hr
    rw [hc r (by omega), hc (r+1) (by omega)]
    exact rowPtrCount_mono X n perm r (r+1) (by omega)
  · intro r hr
    rw [hc r (by omega), hc (r+1) (by omega)]
    ext k
    simp only [Finset.mem_image, Finset.mem_Ico, Finset.mem_filter,
      Finset.mem_range]
    constructor
    · rintro ⟨i, ⟨hm1, hm2⟩, hik⟩
      have hle : rowPtrCount X n perm (r+1) ≤ X.nnz := by
        have := rowPtrCount_mono X n perm (r+1) (X.siz n) (by omega)
        omega
      have hi : i < X.nnz := by omega
      have hval := (hseg r hr i hi).mp ⟨hm1, hm2⟩
      exact ⟨hik ▸ hlt i hi, hik ▸ hval⟩
    · intro ⟨hk, hkr⟩
      obtain ⟨i, hi, hik⟩ := perm_surj X perm hlt hinj k hk
      have hval : X.subs (perm i) n = r := by rw [hik]; exact hkr
      exact ⟨i, (hseg r hr i hi).mpr hval, hik⟩
  · intro k hk
    have hksiz : k ≤ X.siz n := by
      have := hbound (perm 0) (hlt 0 hnz)
      omega
    rw [hc k hksiz]
    unfold rowPtrCount
    have : (Finset.range X.nnz).filter (fun j => X.subs (perm j) n < k) =
        ∅ := by
      rw [Finset.filter_eq_empty_iff]
      intro j hj
      rw [Finset.mem_range] at hj
      have := hsort 0 hnz j hj (Nat.zero_le j)
      omega
    rw [this]
    rfl
  · intro k hk hksiz
    rw [hc k hksiz]
    unfold rowPtrCount
    rw [Finset.filter_true_of_mem, Finset.card_range]
    intro j hj
    rw [Finset.mem_range] at hj
    have := hsort j hj (X.nnz - 1) (by omega) (by omega)
    omega
  · intro r hr hno
    rw [hc r (by omega), hc (r+1) (by omega)]
    unfold rowPtrCount
    congr 1
    apply Finset.filter_congr
    intro j hj
    rw [Finset.mem_range] at hj
    have := hno (perm j) (hlt j hj)
    omega

/-- Witness for C4: the hypotheses hold for the Scenario A tensor at
mode 0 (three nonzeros, sorted permutation [0,2,1]), with arbitrary
uninitialized contents 7. -/
theorem claim_C4_witness :
    createRowPtrImpl scenarioA_X 0 scenarioA_perm0 (fun _ => 7) 0 = 0 ∧
    createRowPtrImpl scenarioA_X 0 scenarioA_perm0 (fun _ => 7)
      (scenarioA_X.siz 0) = scenarioA_X.nnz ∧
    (∀ r, r < scenarioA_X.siz 0 →
      createRowPtrImpl scenarioA_X 0 scenarioA_perm0 (fun _ => 7) r ≤
        createRowPtrImpl scenarioA_X 0 scenarioA_perm0 (fun _ => 7) (r+1)) ∧
    (∀ r, r < scenarioA_X.siz 0 →
      (Finset.Ico
          (createRowPtrImpl scenarioA_X 0 scenarioA_perm0 (fun _ => 7) r)
          (createRowPtrImpl scenarioA_X 0 scenarioA_perm0 (fun _ => 7)
            (r+1))).image scenarioA_perm0 =
        (Finset.range scenarioA_X.nnz).filter
          (fun k => scenarioA_X.subs k 0 = r)) ∧
    (∀ k, k ≤ scenarioA_X.subs (scenarioA_perm0 0) 0 →
      createRowPtrImpl scenarioA_X 0 scenarioA_perm0 (fun _ => 7) k = 0) ∧
    (∀ k, scenarioA_X.subs (scenarioA_perm0 (scenarioA_X.nnz - 1)) 0 < k →
      k ≤ scenarioA_X.siz 0 →
      createRowPtrImpl scenarioA_X 0 scenarioA_perm0 (fun _ => 7) k =
        scenarioA_X.nnz) ∧
    (∀ r, r < scenarioA_X.siz 0 →
      (∀ k, k < scenarioA_X.nnz → scenarioA_X.subs k 0 ≠ r) →
      createRowPtrImpl scenarioA_X 0 scenarioA_perm0 (fun _ => 7) (r+1) =
        createRowPtrImpl scenarioA_X 0 scenarioA_perm0 (fun _ => 7) r) :=
  claim_C4_createRowPtr scenarioA_X 0 scenarioA_perm0 (fun _ => 7)
    (by decide) (by decide) (by decide) (by decide) (by decide)

/-! ### CP-ALS residual norm (Genten_CpAls.cpp, `computeResNorm`)

`computeResNorm(xNorm, mNorm, xDotm)` forms
`d = xNorm² + mNorm² − 2·xDotm` and returns `sqrt(d)` when
`d > DBL_MIN`, returns 0 when `d` is above the small-negative
threshold `−xDotm·sqrt(MACHINE_EPSILON)·10³`, and otherwise raises the
negative-residual-norm error.  The square root is kept symbolic
(`sqrtOf d`) since only the branch selection is at issue. -/

/-- `DBL_MIN` from `<float.h>`: the smallest positive normalized
IEEE-754 double, `2^-1022`. -/
def DBL_MIN : ℚ := 1 / 2 ^ 1022

/-- Modelled from the spec: `MACHINE_EPSILON` (defined in
Genten_Util.hpp, which is not among the provided sources); per spec §3
and §9 the real type is IEEE-754 double, whose machine epsilon is
`2^-52`. -/
def MACHINE_EPSILON : ℚ := 1 / 2 ^ 52

/-- `sqrt(MACHINE_EPSILON)`, which is exact for this even power of
two: `2^-26`. -/
def sqrtMachineEps : ℚ := 1 / 2 ^ 26

/-- The symbolic value is indeed the square root of the modelled
machine epsilon. -/
theorem sqrtMachineEps_sq : sqrtMachineEps * sqrtMachineEps = MACHINE_EPSILON := by
  norm_num [sqrtMachineEps, MACHINE_EPSILON]

/-- The three possible outcomes of `computeResNorm`. -/
inductive ResNormResult where
  | sqrtOf (d : ℚ)
  | zero
  | negativeResidualError
  deriving DecidableEq

/-- `computeResNorm` (Genten_CpAls.cpp lines 454-473). -/
def computeResNorm (xNorm mNorm xDotm : ℚ) : ResNormResult :=
  let d := xNorm * xNorm + mNorm * mNorm - 2 * xDotm
  if d > DBL_MIN then .sqrtOf d
  else if d > -(xDotm * sqrtMachineEps * 1000) then .zero
  else .negativeResidualError

/-- C5 fails as stated: at `xNorm = mNorm = 0`, `xDotm = -2^-1024` the
residual square `d = 2^-1023` is positive, yet the code returns 0 (its
first branch tests `d > DBL_MIN = 2^-1022`, not `d > 0`). -/
theorem claim_C5_counterexample :
    ((0 : ℚ) * 0 + 0 * 0 - 2 * (-(1 / 2 ^ 1024)) > 0) ∧
    computeResNorm 0 0 (-(1 / 2 ^ 1024)) ≠
      .sqrtOf ((0 : ℚ) * 0 + 0 * 0 - 2 * (-(1 / 2 ^ 1024))) := by
  constructor
  · norm_num
  · have : computeResNorm 0 0 (-(1 / 2 ^ 1024)) = .zero := by
      unfold computeResNorm
      rw [if_neg (by norm_num [DBL_MIN]), if_pos (by norm_num [sqrtMachineEps])]
    rw [this]
    intro hcontra
    exact ResNormResult.noConfusion hcontra

/-- C5 amended: with `d = xNorm² + mNorm² − 2·xDotm`, the result is the
square root of `d` when `d > DBL_MIN` (not `d > 0`); else 0 when
`d > −xDotm·√ε·10³`; else the NegativeResidualNorm failure. -/
theorem claim_C5_resnorm (xNorm mNorm xDotm d : ℚ)
    (hd : d = xNorm * xNorm + mNorm * mNorm - 2 * xDotm) :
    (d > DBL_MIN → computeResNorm xNorm mNorm xDotm = .sqrtOf d) ∧
    (d ≤ DBL_MIN → d > -(xDotm * sqrtMachineEps * 1000) →
      computeResNorm xNorm mNorm xDotm = .zero) ∧
    (d ≤ DBL_MIN → d ≤ -(xDotm * sqrtMachineEps * 1000) →
      computeResNorm xNorm mNorm xDotm = .negativeResidualError) := by
  subst hd
  unfold computeResNorm
  refine ⟨fun h1 => ?_, fun h1 h2 => ?_, fun h1 h2 => ?_⟩
  · rw [if_pos h1]
  · rw [if_neg (by linarith), if_pos h2]
  · rw [if_neg (by linarith), if_neg (by linarith)]

/-- Witness for C5 (amended): at `xNorm = 2`, `mNorm = 0`, `xDotm = 0`
the residual square is 4 and the first branch fires. -/
theorem claim_C5_witness :
    computeResNorm 2 0 0 = .sqrtOf 4 :=
  (claim_C5_resnorm 2 0 0 4 (by norm_num)).1 (by norm_num [DBL_MIN])

/-! ### CP-ALS argument checks (Genten_CpAls.cpp, `cpals_core`)

`cpals_core` begins by checking `u.isConsistent()`, then
`x.ndims() == u.ndims()`, then `x.size(i) == u[i].nRows()` for each
mode, raising an error at the first violation.  No check of `tol` or
`maxIters` is performed. -/

/-- The argument-check errors raised by `cpals_core`. -/
inductive CpAlsError where
  | ktensorNotConsistent
  | dimsMismatch
  | sizeMismatch (i : ℕ)
  deriving DecidableEq

/-- Modelled from the spec: `Ktensor::isConsistent` (the Ktensor class
implementation is not among the provided sources); per spec §3,
isConsistent ≡ (∀ i, U_i.cols = R) ∧ (λ.length = R). -/
def Ktensor.isConsistent (u : Ktensor) : Bool :=
  ((List.range u.nd).all fun m => (u.factor m).nCols == u.nc) &&
    (u.lambdaLen == u.nc)

/-- The argument checks of `cpals_core` (Genten_CpAls.cpp lines
121-130).  The parameters `tol` and `maxIters` are taken to mirror the
signature; the code never inspects them. -/
def cpalsCheckArgs (x : Sptensor) (u : Ktensor) (tol : ℚ)
    (maxIters : ℕ) : Option CpAlsError :=
  if u.isConsistent = false then some .ktensorNotConsistent
  else if x.nd ≠ u.nd then some .dimsMismatch
  else
    match (List.range x.nd).find? (fun i => x.siz i != (u.factor i).nRows) with
    | some i => some (.sizeMismatch i)
    | none => none

/-- C6 fails as stated: with the (consistent, size-matching) Scenario A
inputs but `tol = -1 ≤ 0` and `maxIters = 0 < 1`, the argument checks
of `cpals_core` pass without an error — `tol` and `maxIters` are never
validated. -/
theorem claim_C6_counterexample :
    cpalsCheckArgs scenarioA_X scenarioA_U (-1) 0 = none ∧
    ¬ ((-1 : ℚ) > 0) ∧ ¬ ((0 : ℕ) ≥ 1) := by
  refine ⟨by decide, by norm_num, by decide⟩

/-- C6 amended: `cpals_core` eagerly checks `u.isConsistent()`,
`u.ndims = x.ndims` and `u[i].nRows = x.size(i)` for every mode before
any kernel invocation, failing with an error when one is violated; the
outcome never depends on `tol` or `maxIters`, which are not checked. -/
theorem claim_C6_checkArgs (x : Sptensor) (u : Ktensor) (tol : ℚ)
    (maxIters : ℕ) :
    (cpalsCheckArgs x u tol maxIters = none ↔
      (u.isConsistent = true ∧ x.nd = u.nd ∧
        ∀ i, i < x.nd → x.siz i = (u.factor i).nRows)) ∧
    (∀ (tol' : ℚ) (maxIters' : ℕ),
      cpalsCheckArgs x u tol maxIters = cpalsCheckArgs x u tol' maxIters') := by
  constructor
  · unfold cpalsCheckArgs
    by_cases hcons : u.isConsistent = true
    · rw [if_neg (by simp [hcons])]
      by_cases hnd : x.nd = u.nd
      · rw [if_neg (by simp [hnd])]
        rcases hfind : (List.range x.nd).find?
            (fun i => x.siz i != (u.factor i).nRows) with _ | i
        · simp only []
          constructor
          · intro _
            refine ⟨hcons, hnd, fun i hi => ?_⟩
            have := List.find?_eq_none.mp hfind i (List.mem_range.mpr hi)
            simpa using this
          · intro _
            trivial
        · simp only []
          constructor
          · intro hcontra
            exact absurd hcontra (by simp)
          · intro ⟨_, _, hall⟩
            have hmem := List.find?_some hfind
            have hmem2 := List.mem_range.mp
              (List.mem_of_find?_eq_some hfind)
            have := hall i hmem2
            simp [this] at hmem
      · rw [if_pos (by simpa using hnd)]
        constructor
        · intro hcontra
          exact absurd hcontra (by simp)
        · intro ⟨_, hnd2, _⟩
          exact absurd hnd2 hnd
    · rw [if_pos (by simpa using hcons)]
      constructor
      · intro hcontra
        exact absurd hcontra (by simp)
      · intro ⟨hcons2, _, _⟩
        exact absurd hcons2 hcons
  · intro tol' maxIters'
    rfl

/-- Witness for C6 (amended) at the Scenario A inputs with `tol = -1`
and `maxIters = 0`. -/
theorem claim_C6_witness :
    (cpalsCheckArgs scenarioA_X scenarioA_U (-1) 0 = none ↔
      (scenarioA_U.isConsistent = true ∧ scenarioA_X.nd = scenarioA_U.nd ∧
        ∀ i, i < scenarioA_X.nd →
          scenarioA_X.siz i = (scenarioA_U.factor i).nRows)) ∧
    (∀ (tol' : ℚ) (maxIters' : ℕ),
      cpalsCheckArgs scenarioA_X scenarioA_U (-1) 0 =
        cpalsCheckArgs scenarioA_X scenarioA_U tol' maxIters') :=
  claim_C6_checkArgs scenarioA_X scenarioA_U (-1) 0

/-! ### CP-ALS initial weight distribution (Genten_CpAls.cpp line 167) -/

/-- Modelled from the spec: `Ktensor::distribute(i)` (the Ktensor class
implementation is not among the provided sources); per spec §3 a
K-tensor is *distributed* when λ ≡ 1, so `distribute(i)` absorbs the
weights into factor matrix `i` — scaling its column `j` by `λ[j]` — and
sets every weight to one. -/
def Ktensor.distribute (u : Ktensor) (i : ℕ) : Ktensor :=
  { u with
    weights := fun _ => 1
    factor := fun m =>
      if m = i then
        { u.factor m with
          entry := fun r j => (u.factor m).entry r j * u.weights j }
      else u.factor m }

/-- The entry phase of `cpals_core`: "Distribute the initial guess to
have weights of one" via `u.distribute(0)`. -/
def cpalsInitGuess (u : Ktensor) : Ktensor := u.distribute 0

/-- C9: on entry `cpals_core` replaces the weight vector of the guess
with all ones, scales column `j` of factor matrix 0 by the original
weight `λ[j]`, and leaves every other factor matrix unchanged. -/
theorem claim_C9_distribute (u : Ktensor) :
    (∀ j, (cpalsInitGuess u).weights j = 1) ∧
    (∀ m, m ≠ 0 → (cpalsInitGuess u).factor m = u.factor m) ∧
    (∀ r j, ((cpalsInitGuess u).factor 0).entry r j =
      (u.factor 0).entry r j * u.weights j) ∧
    ((cpalsInitGuess u).factor 0).nRows = (u.factor 0).nRows ∧
    ((cpalsInitGuess u).factor 0).nCols = (u.factor 0).nCols := by
  refine ⟨fun j => rfl, fun m hm => ?_, fun r j => ?_, rfl, rfl⟩
  · simp [cpalsInitGuess, Ktensor.distribute, hm]
  · simp [cpalsInitGuess, Ktensor.distribute]

/-- Witness for C9 at the Scenario A K-tensor. -/
theorem claim_C9_witness :
    (cpalsInitGuess scenarioA_U).weights 0 = 1 ∧
    (cpalsInitGuess scenarioA_U).factor 1 = scenarioA_U.factor 1 ∧
    ((cpalsInitGuess scenarioA_U).factor 0).entry 0 0 =
      (scenarioA_U.factor 0).entry 0 0 * scenarioA_U.weights 0 :=
  ⟨(claim_C9_distribute scenarioA_U).1 0,
   (claim_C9_distribute scenarioA_U).2.1 1 (by decide),
   (claim_C9_distribute scenarioA_U).2.2.1 0 0⟩

/-! ### CP-ALS iteration count (Genten_CpAls.cpp lines 224-335)

The main loop is `for (numIters = 0; numIters < maxIters; numIters++)`
whose body ends with `if (converged-or-time-limit) break;`, followed by
`numIters++` after the loop.  `cpalsLoopGo stop fuel k` models the loop
with `fuel = maxIters - k` iterations remaining and `stop k` the
convergence/time-limit condition evaluated at the end of iteration
`k`. -/

/-- The loop of `cpals_core`, returning the value of `numIters` at loop
exit. -/
def cpalsLoopGo (stop : ℕ → Bool) : ℕ → ℕ → ℕ
  | 0, k => k
  | fuel+1, k => if stop k then k else cpalsLoopGo stop fuel (k+1)

/-- The value of the `numIters` output of `cpals_core`: the loop-exit
value plus the final `numIters++`. -/
def cpalsNumIters (maxIters : ℕ) (stop : ℕ → Bool) : ℕ :=
  cpalsLoopGo stop maxIters 0 + 1

/-- The loop exits at the first stopping iteration. -/
theorem cpalsLoopGo_stop (stop : ℕ → Bool) :
    ∀ (fuel j k : ℕ), j ≤ k → k < j + fuel → stop k = true →
      (∀ i, j ≤ i → i < k → stop i = false) →
      cpalsLoopGo stop fuel j = k := by
  intro fuel
  induction fuel with
  | zero => intro j k h1 h2 _ _; omega
  | succ fuel ih =>
    intro j k h1 h2 hs hprev
    by_cases hjk : j = k
    · subst hjk
      simp [cpalsLoopGo, hs]
    · have : stop j = false := hprev j le_rfl (by omega)
      simp only [cpalsLoopGo, this]
      rw [if_neg (by simp)]
      exact ih (j+1) k (by omega) (by omega) hs (fun i hi => hprev i (by omega))

/-- Without a stop, the loop runs out its fuel. -/
theorem cpalsLoopGo_nostop (stop : ℕ → Bool) :
    ∀ (fuel j : ℕ), (∀ i, j ≤ i → i < j + fuel → stop i = false) →
      cpalsLoopGo stop fuel j = j + fuel := by
  intro fuel
  induction fuel with
  | zero => intro j _; rfl
  | succ fuel ih =>
    intro j hall
    have : stop j = false := hall j le_rfl (by omega)
    simp only [cpalsLoopGo, this]
    rw [if_neg (by simp)]
    rw [ih (j+1) (fun i h1 h2 => hall i (by omega) (by omega))]
    omega

/-- C10: the `numIters` output of `cpals_core` equals `k + 1` when the
convergence/time-limit check first triggers at loop iteration `k`, and
equals `maxIters + 1` — one more than the number of iterations actually
executed — when the loop runs all `maxIters` iterations without the
check triggering. -/
theorem claim_C10_numIters (maxIters : ℕ) (stop : ℕ → Bool) :
    (∀ k, k < maxIters → stop k = true → (∀ i, i < k → stop i = false) →
      cpalsNumIters maxIters stop = k + 1) ∧
    ((∀ k, k < maxIters → stop k = false) →
      cpalsNumIters maxIters stop = maxIters + 1) := by
  constructor
  · intro k hk hs hprev
    unfold cpalsNumIters
    rw [cpalsLoopGo_stop stop maxIters 0 k (Nat.zero_le k) (by omega) hs
      (fun i _ h2 => hprev i h2)]
  · intro hall
    unfold cpalsNumIters
    rw [cpalsLoopGo_nostop stop maxIters 0 (fun i _ h2 => hall i (by omega))]
    omega

/-- Witness for C10: with `maxIters = 3` and the check triggering at
iteration 1, `numIters = 2`; with `maxIters = 2` and no trigger,
`numIters = 3`. -/
theorem claim_C10_witness :
    cpalsNumIters 3 (fun k => k == 1) = 2 ∧
    cpalsNumIters 2 (fun _ => false) = 3 :=
  ⟨(claim_C10_numIters 3 (fun k => k == 1)).1 1 (by decide) (by decide)
      (by decide),
   (claim_C10_numIters 2 (fun _ => false)).2 (by decide)⟩

/-! ### Headerless sparse-tensor text import (Genten_IOtext.cpp,
`import_sptensor`)

When the first token of the first content line is not `sptensor`, the
file is parsed headerless.  A content line is modelled already
tokenized and numerically converted: its leading integer tokens
(`std::stol(tokens[i])`, the subscripts) and its final real token
(`std::stod(tokens[nModes])`, the value).  The branch then sets
`nModes = tokens.size() - 1` from the first line, subtracts the
caller-supplied `index_base` offset from every subscript, grows each
mode size as the running maximum of adjusted subscript plus one, counts
`nnz` per line, and rejects any later line whose token count differs
from `nModes + 1`.

`offset`, `sub_row` and `dims` are `ttb_indx` — an unsigned index type
— so `std::stol(tokens[i]) - offset` and `sub_row[i] + 1` are computed
by the usual C++ arithmetic conversions in the unsigned domain and wrap
modulo `2^W`; `ttbSub` and `ttbSucc` below embed that wrapping
arithmetic. -/

/-- Modelled from the spec: the width of `ttb_indx` (its typedef header
is not among the provided sources); per spec §3 an index value is an
unsigned integer "wide enough to address the largest factor matrix row
(64-bit recommended)", so its arithmetic wraps modulo `2^64`. -/
def ttbIndxMod : ℕ := 2 ^ 64

/-- `std::stol(token) - offset` evaluated in the unsigned `ttb_indx`
domain: both operands are converted to the unsigned type and the
subtraction wraps modulo `2^64`, so a token below the index base yields
a value near `2^64`. -/
def ttbSub (t : ℤ) (offset : ℕ) : ℕ :=
  ((t - (offset : ℤ)) % (ttbIndxMod : ℤ)).toNat

/-- `s + 1` in the unsigned `ttb_indx` domain. -/
def ttbSucc (s : ℕ) : ℕ := (s + 1) % ttbIndxMod

/-- When the token is at least the index base and their difference is
representable, the wrapped subtraction is the plain difference. -/
theorem ttbSub_of_representable (t : ℤ) (offset : ℕ)
    (h1 : (offset : ℤ) ≤ t) (h2 : t - (offset : ℤ) < (ttbIndxMod : ℤ)) :
    (ttbSub t offset : ℤ) = t - offset := by
  unfold ttbSub
  rw [Int.emod_eq_of_lt (by omega) h2]
  exact Int.toNat_of_nonneg (by omega)

/-- A token below the index base wraps: subscript token 0 with
`index_base = 1` is stored as `2^64 - 1`. -/
theorem ttbSub_wraps : ttbSub 0 1 = 2 ^ 64 - 1 := by
  unfold ttbSub ttbIndxMod
  norm_num
  rfl

/-- One tokenized content line: the subscript tokens and the value
token. -/
structure SptLine where
  subsTok : List ℤ
  valTok : ℚ

/-- The running parse state: `nnz` so far, the running `dims`, and the
accumulated subscripts and values, all index data in the unsigned
`ttb_indx` domain. -/
def SptAcc : Type := ℕ × List ℕ × List (List ℕ) × List ℚ

/-- The `while (getLineContent(fIn,s))` loop of `import_sptensor` for
the lines after the first. -/
def importSptensorRest (nModes offset : ℕ) :
    List SptLine → SptAcc → Except String SptAcc
  | [], acc => .ok acc
  | l :: ls, (nnz, dims, subs, vals) =>
    if l.subsTok.length + 1 ≠ nModes + 1 then
      .error "Genten::import_sptensor - error reading nonzero"
    else
      let sub_row := l.subsTok.map (fun t => ttbSub t offset)
      importSptensorRest nModes offset ls
        (nnz + 1,
         dims.zipWith (fun d s => max d (ttbSucc s)) sub_row,
         subs ++ [sub_row],
         vals ++ [l.valTok])

/-- The headerless branch of `import_sptensor`: the first content line
fixes `nModes` and seeds the dimensions, then the remaining lines are
consumed. -/
def importSptensorHeaderless (offset : ℕ) (first : SptLine)
    (rest : List SptLine) : Except String SptAcc :=
  let nModes := first.subsTok.length
  let sub_row := first.subsTok.map (fun t => ttbSub t offset)
  let dims := sub_row.map (fun s => ttbSucc s)
  importSptensorRest nModes offset rest (1, dims, [sub_row], [first.valTok])

/-- Closed form of the line loop on well-formed input. -/
theorem importSptensorRest_ok (nModes offset : ℕ) :
    ∀ (ls : List SptLine) (nnz : ℕ) (dims : List ℕ)
      (subs : List (List ℕ)) (vals : List ℚ),
      (∀ l ∈ ls, l.subsTok.length = nModes) →
      importSptensorRest nModes offset ls (nnz, dims, subs, vals) =
        .ok (nnz + ls.length,
             (ls.map (fun l => l.subsTok.map (fun t => ttbSub t offset))).foldl
               (fun d sr => d.zipWith (fun a s => max a (ttbSucc s)) sr) dims,
             subs ++ ls.map (fun l => l.subsTok.map (fun t => ttbSub t offset)),
             vals ++ ls.map (fun l => l.valTok)) := by
  intro ls
  induction ls with
  | nil => intro nnz dims subs vals _; simp [importSptensorRest]
  | cons l ls ih =>
    intro nnz dims subs vals hlen
    have hl : l.subsTok.length = nModes := hlen l (List.mem_cons_self l ls)
    rw [importSptensorRest, if_neg (by omega)]
    rw [ih (nnz + 1) _ _ _ (fun x hx => hlen x (List.mem_cons_of_mem l hx))]
    simp only [List.map_cons, List.foldl_cons, List.length_cons,
      List.append_assoc, List.singleton_append]
    congr 2
    omega

/-- A malformed later line makes the loop fail. -/
theorem importSptensorRest_error (nModes offset : ℕ) :
    ∀ (ls : List SptLine) (acc : SptAcc),
      (∃ l ∈ ls, l.subsTok.length ≠ nModes) →
      ∃ e, importSptensorRest nModes offset ls acc = .error e := by
  intro ls
  induction ls with
  | nil =>
    intro acc h
    obtain ⟨l, hl, _⟩ := h
    exact absurd hl (List.not_mem_nil l)
  | cons l ls ih =>
    intro acc h
    rcases acc with ⟨nnz, dims, subs, vals⟩
    by_cases hl : l.subsTok.length = nModes
    · obtain ⟨l', hl', hne⟩ := h
      rcases List.mem_cons.mp hl' with h1 | h2
      · exact absurd (h1 ▸ hne) (by simp [hl])
      · rw [importSptensorRest, if_neg (by omega)]
        exact ih _ ⟨l', h2, hne⟩
    · exact ⟨"Genten::import_sptensor - error reading nonzero", by
        rw [importSptensorRest, if_pos (by omega)]⟩

/-- Length of the running-maximum fold. -/
theorem zipfold_length :
    ∀ (srs : List (List ℕ)) (dims : List ℕ),
      (∀ sr ∈ srs, sr.length = dims.length) →
      (srs.foldl (fun d sr => d.zipWith (fun a s => max a (ttbSucc s)) sr)
          dims).length = dims.length := by
  intro srs
  induction srs with
  | nil => intro dims _; rfl
  | cons sr srs ih =>
    intro dims hlen
    have hsr : sr.length = dims.length := hlen sr (List.mem_cons_self sr srs)
    have hzlen : (dims.zipWith (fun a s => max a (ttbSucc s)) sr).length =
        dims.length := by
      rw [List.length_zipWith]
      omega
    simp only [List.foldl_cons]
    rw [ih (dims.zipWith (fun a s => max a (ttbSucc s)) sr)
      (fun x hx => by rw [hzlen]; exact hlen x (List.mem_cons_of_mem sr hx)),
      hzlen]

/-- Value of the running-maximum fold at coordinate `i`. -/
theorem zipfold_getD (i : ℕ) :
    ∀ (srs : List (List ℕ)) (dims : List ℕ),
      (∀ sr ∈ srs, sr.length = dims.length) → i < dims.length →
      (srs.foldl (fun d sr => d.zipWith (fun a s => max a (ttbSucc s)) sr)
          dims).getD i 0 =
        (srs.map (fun sr => ttbSucc (sr.getD i 0))).foldl max
          (dims.getD i 0) := by
  intro srs
  induction srs with
  | nil => intro dims _ _; rfl
  | cons sr srs ih =>
    intro dims hlen hi
    have hsr : sr.length = dims.length := hlen sr (List.mem_cons_self sr srs)
    have hzlen : (dims.zipWith (fun a s => max a (ttbSucc s)) sr).length =
        dims.length := by
      rw [List.length_zipWith]
      omega
    simp only [List.foldl_cons, List.map_cons]
    rw [ih (dims.zipWith (fun a s => max a (ttbSucc s)) sr)
      (fun x hx => by rw [hzlen]; exact hlen x (List.mem_cons_of_mem sr hx))
      (by omega)]
    congr 1
    rw [List.getD_eq_getElem?_getD, List.getElem?_zipWith]
    rw [List.getD_eq_getElem?_getD, List.getD_eq_getElem?_getD]
    rcases h1 : dims[i]? with _ | d
    · rw [List.getElem?_eq_none_iff] at h1
      omega
    · rcases h2 : sr[i]? with _ | s
      · rw [List.getElem?_eq_none_iff] at h2
        omega
      · rfl

/-- Maximum folds dominate every element and the seed, and are
attained. -/
theorem foldl_max_spec (a : ℕ) :
    ∀ (L : List ℕ),
      (a ≤ L.foldl max a) ∧ (∀ x ∈ L, x ≤ L.foldl max a) ∧
      (L.foldl max a = a ∨ L.foldl max a ∈ L) := by
  intro L
  induction L generalizing a with
  | nil => exact ⟨le_rfl, by simp, Or.inl rfl⟩
  | cons x L ih =>
    obtain ⟨h1, h2, h3⟩ := ih (max a x)
    simp only [List.foldl_cons]
    refine ⟨le_trans (le_max_left a x) h1, ?_, ?_⟩
    · intro y hy
      rcases List.mem_cons.mp hy with rfl | hyL
      · exact le_trans (le_max_right a y) h1
      · exact h2 y hyL
    · rcases h3 with heq | hmem
      · rcases max_choice a x with hax | hax
        · exact Or.inl (by rw [heq, hax])
        · exact Or.inr (by rw [heq, hax]; exact List.mem_cons_self x L)
      · exact Or.inr (List.mem_cons_of_mem x hmem)

/-- `getD` through a map, inside the list's length. -/
theorem getD_map_lt {α β : Type} (f : α → β) (dA : α) (dB : β)
    (l : List α) (i : ℕ) (h : i < l.length) :
    (l.map f).getD i dB = f (l.getD i dA) := by
  rw [List.getD_eq_getElem?_getD, List.getElem?_map, List.getD_eq_getElem?_getD]
  rcases h2 : l[i]? with _ | d
  · rw [List.getElem?_eq_none_iff] at h2
    omega
  · rfl

/-- C8: on a headerless file the number of modes is one less than the
field count of the first line, `nnz` is the number of content lines,
every subscript is reduced by the caller-supplied `index_base` in the
wrapping unsigned `ttb_indx` arithmetic of the source, each mode size
is the per-mode maximum of the adjusted subscripts plus one — the
increment also in `ttb_indx` arithmetic — (it dominates every line and
is attained on some line), and a line whose field count differs from
`nModes + 1` causes an error. -/
theorem claim_C8_import_headerless (offset : ℕ) (first : SptLine)
    (rest : List SptLine) :
    ((∀ l ∈ rest, l.subsTok.length = first.subsTok.length) →
      ∃ dims,
        importSptensorHeaderless offset first rest =
          .ok (1 + rest.length, dims,
            (first :: rest).map
              (fun l => l.subsTok.map (fun t => ttbSub t offset)),
            (first :: rest).map (fun l => l.valTok)) ∧
        dims.length = first.subsTok.length ∧
        (∀ i, i < first.subsTok.length →
          (∀ l ∈ first :: rest,
            ttbSucc (ttbSub (l.subsTok.getD i 0) offset) ≤ dims.getD i 0) ∧
          (∃ l ∈ first :: rest,
            dims.getD i 0 = ttbSucc (ttbSub (l.subsTok.getD i 0) offset)))) ∧
    ((∃ l ∈ rest, l.subsTok.length ≠ first.subsTok.length) →
      ∃ e, importSptensorHeaderless offset first rest = .error e) := by
  constructor
  · intro hlen
    unfold importSptensorHeaderless
    rw [importSptensorRest_ok first.subsTok.length offset rest 1 _ _ _ hlen]
    have hlens : ∀ sr ∈ rest.map
        (fun l => l.subsTok.map (fun t => ttbSub t offset)),
        sr.length = ((first.subsTok.map (fun t => ttbSub t offset)).map
          (fun s => ttbSucc s)).length := by
      intro sr hsr
      obtain ⟨l, hl, rfl⟩ := List.mem_map.mp hsr
      simp [hlen l hl]
    refine ⟨_, by rw [List.map_cons]; rfl, ?_, ?_⟩
    · rw [zipfold_length _ _ hlens]
      simp
    · intro i hi
      have hi' : i < ((first.subsTok.map (fun t => ttbSub t offset)).map
          (fun s => ttbSucc s)).length := by simpa using hi
      rw [zipfold_getD i _ _ hlens hi']
      have hseed : ((first.subsTok.map (fun t => ttbSub t offset)).map
          (fun s => ttbSucc s)).getD i 0 =
          ttbSucc (ttbSub (first.subsTok.getD i 0) offset) := by
        rw [getD_map_lt _ 0 0 _ i (by simpa using hi),
          getD_map_lt _ 0 0 _ i (by simpa using hi)]
      have hmapped : (rest.map
            (fun l => l.subsTok.map (fun t => ttbSub t offset))).map
            (fun sr => ttbSucc (sr.getD i 0)) =
          rest.map (fun l => ttbSucc (ttbSub (l.subsTok.getD i 0) offset)) := by
        rw [List.map_map]
        apply List.map_congr_left
        intro l hl
        simp only [Function.comp]
        rw [getD_map_lt _ 0 0 _ i (by rw [hlen l hl]; exact hi)]
      rw [hmapped, hseed]
      obtain ⟨hseedle, helem, hatt⟩ := foldl_max_spec
        (ttbSucc (ttbSub (first.subsTok.getD i 0) offset))
        (rest.map (fun l => ttbSucc (ttbSub (l.subsTok.getD i 0) offset)))
      constructor
      · intro l hl
        rcases List.mem_cons.mp hl with rfl | hlr
        · exact hseedle
        · exact helem _ (List.mem_map_of_mem _ hlr)
      · rcases hatt with heq | hmem
        · exact ⟨first, List.mem_cons_self first rest, heq⟩
        · obtain ⟨l, hl, hval⟩ := List.mem_map.mp hmem
          exact ⟨l, List.mem_cons_of_mem first hl, hval.symm⟩
  · intro h
    unfold importSptensorHeaderless
    exact importSptensorRest_error first.subsTok.length offset rest _ h

/-- Witness for C8: a two-line headerless file with `index_base = 1`
parses (first line fields "1 2 3.5", second "3 1 2"), and a second file
whose second line has 4 fields instead of 3 errors out. -/
theorem claim_C8_witness :
    (∃ dims,
      importSptensorHeaderless 1 ⟨[1, 2], 7/2⟩ [⟨[3, 1], 2⟩] =
        .ok (1 + ([⟨[3, 1], 2⟩] : List SptLine).length, dims,
          ((⟨[1, 2], 7/2⟩ : SptLine) :: [⟨[3, 1], 2⟩]).map
            (fun l => l.subsTok.map (fun t => ttbSub t 1)),
          ((⟨[1, 2], 7/2⟩ : SptLine) :: [⟨[3, 1], 2⟩]).map
            (fun l => l.valTok)) ∧
        dims.length = (⟨[1, 2], 7/2⟩ : SptLine).subsTok.length ∧
        (∀ i, i < (⟨[1, 2], 7/2⟩ : SptLine).subsTok.length →
          (∀ l ∈ (⟨[1, 2], 7/2⟩ : SptLine) :: [⟨[3, 1], 2⟩],
            ttbSucc (ttbSub (l.subsTok.getD i 0) 1) ≤ dims.getD i 0) ∧
          (∃ l ∈ (⟨[1, 2], 7/2⟩ : SptLine) :: [⟨[3, 1], 2⟩],
            dims.getD i 0 = ttbSucc (ttbSub (l.subsTok.getD i 0) 1)))) ∧
    (∃ e, importSptensorHeaderless 1 ⟨[1, 2], 7/2⟩ [⟨[3, 1, 5], 2⟩] =
      .error e) :=
  ⟨(claim_C8_import_headerless 1 ⟨[1, 2], 7/2⟩ [⟨[3, 1], 2⟩]).1
      (fun l hl => by rw [List.mem_singleton] at hl; subst hl; rfl),
   (claim_C8_import_headerless 1 ⟨[1, 2], 7/2⟩ [⟨[3, 1, 5], 2⟩]).2
      ⟨⟨[3, 1, 5], 2⟩, List.mem_singleton.mpr rfl, by decide⟩⟩

end Genten
